import Mathlib

/-!
Verification of the wiki-link engine of the `enkidu` CLI
(`packages/cli/src/core/link/parser.ts`, `.../link/resolver.ts`,
`.../core/sync/link-converter.ts`).

Strings are modelled as `List Char`; JavaScript string operations become the
corresponding list operations.  Each definition is a direct translation of the
TypeScript function of the same name.
-/

namespace Enkidu

/-- Model of a JS character position / length (plain `Nat`). -/
abbrev Str := List Char

/-- `WikiLink` record from `types/link.ts`.  `displayText` and `line` are
optional fields in the source. -/
structure WikiLink where
  raw : Str
  target : Str
  displayText : Option Str
  startIndex : Nat
  endIndex : Nat
  line : Option Nat
deriving Repr, DecidableEq

/-- Whitespace predicate used to model `String.prototype.trim` (the source
only ever trims ASCII space around targets/display text; JS trims a larger
Unicode set which the corpus never uses). -/
def jsTrim (l : Str) : Str :=
  ((l.dropWhile Char.isWhitespace).reverse.dropWhile Char.isWhitespace).reverse

/-- Character class `[^\]|]` of the target segment of `WIKI_LINK_REGEX`. -/
def targetClass (c : Char) : Bool := !(c == ']' || c == '|')

/-- Character class `[^\]]` of the display segment of `WIKI_LINK_REGEX`. -/
def displayClass (c : Char) : Bool := !(c == ']')

/-- One attempt of `WIKI_LINK_REGEX = /\[\[([^\]|]+)(?:\|([^\]]+))?\]\]/` at
the head of `s`.  Returns `(target, displayText?, matchLength)`.

The regex is deterministic at a fixed start position: the greedy target run
can only be followed by `]`, `|` or the end of input, and shrinking it (or the
greedy display run) always leaves the closing `\]\]` facing a character of the
very class that was just given up, so backtracking never produces a match the
greedy attempt missed. -/
def tryMatchAt : Str → Option (Str × Option Str × Nat)
  | c1 :: c2 :: rest =>
    if c1 = '[' ∧ c2 = '[' then
      let t := rest.takeWhile targetClass
      if t.length = 0 then none
      else
        match rest.drop t.length with
        | k1 :: ktail =>
          if k1 = ']' then
            match ktail with
            | k2 :: _ => if k2 = ']' then some (t, none, t.length + 4) else none
            | [] => none
          else if k1 = '|' then
            let d := ktail.takeWhile displayClass
            if d.length = 0 then none
            else
              match ktail.drop d.length with
              | m1 :: m2 :: _ =>
                if m1 = ']' ∧ m2 = ']' then some (t, some d, t.length + d.length + 5)
                else none
              | _ => none
          else none
        | [] => none
    else none
  | _ => none

/-- Raw (untrimmed) regex match: position, matched text, captured groups. -/
structure RawMatch where
  index : Nat
  raw : Str
  target : Str
  display : Option Str
deriving Repr, DecidableEq

/-- The repeated-`exec` loop of the global regex over `s`, reporting matches
at offsets `pos`, `pos+1`, … .  `fuel` only forces structural recursion; any
`fuel ≥ s.length` gives the loop's behaviour. -/
def scanFuel : Nat → Str → Nat → List RawMatch
  | 0, _, _ => []
  | _ + 1, [], _ => []
  | fuel + 1, c :: rest, pos =>
    match tryMatchAt (c :: rest) with
    | some (t, d, len) =>
      { index := pos, raw := (c :: rest).take len, target := t, display := d }
        :: scanFuel fuel ((c :: rest).drop len) (pos + len)
    | none => scanFuel fuel rest (pos + 1)

/-- All matches of `WIKI_LINK_REGEX` in `s` (the `while exec` loop). -/
def scanMatches (s : Str) (pos : Nat) : List RawMatch := scanFuel s.length s pos

/-- First match of the regex anywhere in `s` (a single non-global `exec`). -/
def firstMatch : Str → Option RawMatch
  | [] => none
  | c :: rest =>
    match tryMatchAt (c :: rest) with
    | some (t, d, len) =>
      some { index := 0, raw := (c :: rest).take len, target := t, display := d }
    | none => (firstMatch rest).map (fun m => { m with index := m.index + 1 })

/-- `content.split("\n")` (always at least one, possibly empty, line). -/
def splitLines : Str → List Str
  | [] => [[]]
  | c :: rest =>
    if c = '\n' then [] :: splitLines rest
    else
      match splitLines rest with
      | [] => [[c]]
      | l :: ls => (c :: l) :: ls

/-- Inverse of `splitLines`: rejoin lines with `'\n'`. -/
def joinLines : List Str → Str
  | [] => []
  | [l] => l
  | l :: ls => l ++ '\n' :: joinLines ls

/-- The per-line loop of `extractWikiLinks`: `lineStart` is the character
offset of the current line in the whole content, `lineNumber` the 0-based
line counter. -/
def extractAux : List Str → Nat → Nat → List WikiLink
  | [], _, _ => []
  | ln :: rest, lineStart, lineNumber =>
    ((scanMatches ln 0).map (fun m =>
      { raw := m.raw
        target := jsTrim m.target
        displayText := m.display.map jsTrim
        startIndex := lineStart + m.index
        endIndex := lineStart + m.index + m.raw.length
        line := some (lineNumber + 1) }))
      ++ extractAux rest (lineStart + ln.length + 1) (lineNumber + 1)

/-- `extractWikiLinks` from `parser.ts`: split into lines, run the regex on
each line, record whole-text offsets and 1-indexed line numbers. -/
def extractWikiLinks (content : Str) : List WikiLink :=
  extractAux (splitLines content) 0 0

/-- `parseWikiLink` from `parser.ts`: a single `exec` over the input; the
result always reports `startIndex = 0` and `endIndex = match[0].length`
regardless of where the match sits. -/
def parseWikiLink (linkText : Str) : Option WikiLink :=
  (firstMatch linkText).map (fun m =>
    { raw := m.raw
      target := jsTrim m.target
      displayText := m.display.map jsTrim
      startIndex := 0
      endIndex := m.raw.length
      line := none })

/-- `createWikiLink` from `parser.ts`.  JS `if (displayText)` is false both
for an absent argument and for the empty string. -/
def createWikiLink (target : Str) (displayText : Option Str) : Str :=
  match displayText with
  | some d =>
    if d.isEmpty then '[' :: '[' :: (target ++ [']', ']'])
    else '[' :: '[' :: (target ++ '|' :: (d ++ [']', ']']))
  | none => '[' :: '[' :: (target ++ [']', ']'])

/-! ## Resolver (`resolver.ts`) -/

/-- ASCII model of `String.prototype.toLowerCase`. -/
def lowerL (s : Str) : Str := s.map Char.toLower

/-- `path.basename(file, ".md")`: last path component, with a proper `".md"`
suffix stripped (node keeps the extension when the whole basename equals it). -/
def basenameMd (p : Str) : Str :=
  let b := (p.reverse.takeWhile (fun c => !(c == '/'))).reverse
  let ext : Str := ['.', 'm', 'd']
  if b ≠ ext ∧ ext.isSuffixOf b then b.take (b.length - 3) else b

/-- Collapse runs of hyphens to a single hyphen. -/
def collapseHyphens : Str → Str
  | [] => []
  | '-' :: rest =>
    match collapseHyphens rest with
    | '-' :: r => '-' :: r
    | r => '-' :: r
  | c :: rest => c :: collapseHyphens rest

/-- Modelled from the spec: `slugify` (`utils/slug.ts` is absent from the
sources; only its tests are present).  The spec describes strategy 3 as
matching "the slugified form of `target` (lowercase, non-alphanumerics to
hyphens, collapsed/trimmed hyphens)". -/
def slugify (t : Str) : Str :=
  let hyphened := (t.map Char.toLower).map (fun c => if c.isAlphanum then c else '-')
  ((collapseHyphens hyphened).dropWhile (fun c => c == '-')).reverse.dropWhile (fun c => c == '-') |>.reverse

/-- The file-listing and file-existence collaborators of the resolver:
`files` is the result of `getAllMarkdownFiles` (recursive scan of the
notes/blog/daily roots, in scan order), `root` the PKM root, and
`fileExistsAt` the `fileExists` probe used by the daily-note strategy. -/
structure Corpus where
  root : Str
  files : List Str
  fileExistsAt : Str → Bool

/-- `/^(\d{4})-(\d{2})-(\d{2})$/` (and the `/`-separated variant). -/
def matchSepDate (sep : Char) : Str → Option (Str × Str × Str)
  | [y1, y2, y3, y4, s1, m1, m2, s2, d1, d2] =>
    if s1 = sep ∧ s2 = sep ∧ ([y1, y2, y3, y4, m1, m2, d1, d2].all Char.isDigit) then
      some ([y1, y2, y3, y4], [m1, m2], [d1, d2])
    else none
  | _ => none

/-- `/^(\d{4})(\d{2})(\d{2})$/`. -/
def matchCompactDate : Str → Option (Str × Str × Str)
  | [y1, y2, y3, y4, m1, m2, d1, d2] =>
    if [y1, y2, y3, y4, m1, m2, d1, d2].all Char.isDigit then
      some ([y1, y2, y3, y4], [m1, m2], [d1, d2])
    else none
  | _ => none

/-- One iteration of the pattern loop in `findDailyNote`: on a pattern match,
probe `join(pkmRoot, "daily", year, month, day + ".md")`. -/
def tryDailyPattern (c : Corpus) : Option (Str × Str × Str) → Option Str
  | some (y, m, d) =>
    let p := c.root ++ ['/', 'd', 'a', 'i', 'l', 'y', '/'] ++ y ++ '/' :: m ++ '/' :: d ++ ['.', 'm', 'd']
    if c.fileExistsAt p then some p else none
  | none => none

/-- `findDailyNote` from `resolver.ts`: try the three date patterns in order. -/
def findDailyNote (target : Str) (c : Corpus) : Option Str :=
  match tryDailyPattern c (matchSepDate '-' target) with
  | some p => some p
  | none =>
    match tryDailyPattern c (matchSepDate '/' target) with
    | some p => some p
    | none => tryDailyPattern c (matchCompactDate target)

/-- `findNoteByLink` from `resolver.ts`: the four matching strategies in
their fixed order. -/
def findNoteByLink (target : Str) (c : Corpus) : Option Str :=
  match c.files.find? (fun f => basenameMd f == target) with
  | some f => some f
  | none =>
    match c.files.find? (fun f => lowerL (basenameMd f) == lowerL target) with
    | some f => some f
    | none =>
      let st := slugify target
      match c.files.find? (fun f => basenameMd f == st || lowerL (basenameMd f) == st) with
      | some f => some f
      | none => findDailyNote target c

/-- Inner loop of the `levenshteinDistance` DP from `resolver.ts`: compute
row `i` of the matrix past its leading `i`.  `prev` is the previous row
starting at the diagonal entry, `left` the entry just written to this row. -/
def levRowAux (bc : Char) : Str → List Nat → Nat → List Nat
  | [], _, _ => []
  | _ :: _, [], _ => []
  | ac :: as_, diag :: prevRest, left =>
    let up := prevRest.headD 0
    let cur := if bc = ac then diag else 1 + min diag (min left up)
    cur :: levRowAux bc as_ prevRest cur

/-- `levenshteinDistance(a, b)` from `resolver.ts`: the classic
dynamic-programming edit distance; `matrix[i][j]` is the distance between the
first `i` characters of `b` and the first `j` characters of `a`, and the
result is `matrix[b.length][a.length]`. -/
def levenshteinDistance (a b : Str) : Nat :=
  let init := List.range (a.length + 1)
  let final :=
    (b.foldl (fun (st : List Nat × Nat) bc =>
      ((st.2 + 1) :: levRowAux bc a st.1 (st.2 + 1), st.2 + 1)) (init, 0)).1
  final.getLast?.getD 0

/-- Stable sort of `l` ascending by the integer `key`, equal keys keeping
their input order: the semantics ES2019 guarantees for
`Array.prototype.sort` with a numeric comparator. -/
def stableInsert (key : α → Int) (x : α) : List α → List α
  | [] => [x]
  | y :: ys => if key y < key x then y :: stableInsert key x ys else x :: y :: ys

/-- Insertion sort built on `stableInsert`; being a stable sort, it computes
the same list as the engine's stable `Array.prototype.sort`. -/
def stableSort (key : α → Int) : List α → List α
  | [] => []
  | x :: xs => stableInsert key x (stableSort key xs)

/-- `findSimilarNotes` from `resolver.ts`: score all stems by
case-insensitive edit distance to `target`, drop scores above 5, sort
ascending (stable), take the first `maxSuggestions`. -/
def findSimilarNotes (target : Str) (c : Corpus) (maxSuggestions : Nat) : List Str :=
  let allSlugs := c.files.map basenameMd
  let scored :=
    ((allSlugs.map (fun slug => (slug, levenshteinDistance (lowerL target) (lowerL slug)))).filter
      (fun it => it.2 ≤ 5))
  ((stableSort (fun it : Str × Nat => (it.2 : Int)) scored).take maxSuggestions).map (·.1)

/-- `ResolvedLink` record from `types/link.ts`. -/
structure ResolvedLink where
  link : WikiLink
  resolvedPath : Option Str
  found : Bool
  suggestions : Option (List Str)

/-- `resolveWikiLink` from `resolver.ts` (the `found` field models the
source's `exists` field). -/
def resolveWikiLink (linkTarget : Str) (c : Corpus) : ResolvedLink :=
  let link : WikiLink :=
    { raw := '[' :: '[' :: (linkTarget ++ [']', ']'])
      target := linkTarget
      displayText := none
      startIndex := 0
      endIndex := linkTarget.length + 4
      line := none }
  match findNoteByLink linkTarget c with
  | some p => { link := link, resolvedPath := some p, found := true, suggestions := none }
  | none =>
    { link := link, resolvedPath := none, found := false
      suggestions := some (findSimilarNotes linkTarget c 5) }

/-! ## Link index (`link-converter.ts`, class `LinkIndex`) -/

/-- `LinkReference` record from `types/link.ts`. -/
structure LinkReference where
  sourceSlug : Str
  sourcePath : Str
  link : WikiLink
deriving Repr, DecidableEq

/-- `LinkIndexEntry` record from `types/link.ts`. -/
structure LinkIndexEntry where
  slug : Str
  filePath : Str
  outgoingLinks : List WikiLink
  incomingLinks : List LinkReference
deriving Repr, DecidableEq

/-- The `Map<string, LinkIndexEntry>` state of `LinkIndex`, as its entry list
in insertion order. -/
abbrev LinkIndexState := List (Str × LinkIndexEntry)

/-- `Map.prototype.set`: overwrite in place if the key is present, else
append. -/
def mapSet {v : Type} (m : List (Str × v)) (key : Str) (val : v) : List (Str × v) :=
  if m.any (fun p => p.1 == key) then
    m.map (fun p => if p.1 == key then (key, val) else p)
  else m ++ [(key, val)]

/-- `LinkIndex.getBacklinks`: `this.index.get(slug)?.incomingLinks || []`. -/
def getBacklinks (index : LinkIndexState) (slug : Str) : List LinkReference :=
  match index.find? (fun p => p.1 == slug) with
  | some p => p.2.incomingLinks
  | none => []

/-- `LinkIndex.getOutgoingLinks`: `this.index.get(slug)?.outgoingLinks || []`. -/
def getOutgoingLinks (index : LinkIndexState) (slug : Str) : List WikiLink :=
  match index.find? (fun p => p.1 == slug) with
  | some p => p.2.outgoingLinks
  | none => []

/-- `BrokenLink` record from `types/link.ts`. -/
structure BrokenLink where
  sourceSlug : Str
  sourcePath : Str
  link : WikiLink
  suggestions : Option (List Str)

/-- `LinkIndex.findBrokenLinks`: every outgoing link whose resolution fails,
in entry order then link order. -/
def findBrokenLinks (index : LinkIndexState) (c : Corpus) : List BrokenLink :=
  index.flatMap (fun p =>
    p.2.outgoingLinks.filterMap (fun l =>
      let r := resolveWikiLink l.target c
      if r.found then none
      else some { sourceSlug := p.1, sourcePath := p.2.filePath, link := l,
                  suggestions := r.suggestions }))

/-- Result record of `LinkIndex.getStatistics`. -/
structure LinkStatistics where
  totalNotes : Nat
  totalLinks : Nat
  brokenLinks : Nat
  validLinks : Nat
deriving Repr, DecidableEq

/-- `LinkIndex.getStatistics`. -/
def getStatistics (index : LinkIndexState) (c : Corpus) : LinkStatistics :=
  let totalLinks := index.foldl (fun acc p => acc + p.2.outgoingLinks.length) 0
  let brokenLinksCount := (findBrokenLinks index c).length
  { totalNotes := index.length
    totalLinks := totalLinks
    brokenLinks := brokenLinksCount
    validLinks := totalLinks - brokenLinksCount }

/-- `LinkIndex.getMostLinkedNotes`: tally incoming-link counts into a fresh
`Map`, then stable-sort the `(slug, count)` pairs by descending count and
truncate.  The comparator `(a, b) => b.count - a.count` is the ascending
order of the key `-count`. -/
def getMostLinkedNotes (index : LinkIndexState) (limit : Nat) : List (Str × Nat) :=
  let linkCounts :=
    index.foldl (fun m p => mapSet m p.1 p.2.incomingLinks.length) ([] : List (Str × Nat))
  let pairs := linkCounts.map (fun p => (p.1, p.2))
  (stableSort (fun it : Str × Nat => -(it.2 : Int)) pairs).take limit

/-- Parsed shape of the JSON cache record (`{version, timestamp, index}`);
the ISO-8601 `timestamp` string is modelled by its epoch value
(`new Date(s).getTime()`). -/
structure CacheData where
  version : Str
  timestamp : Int
  index : List (Str × LinkIndexEntry)
deriving Repr, DecidableEq

/-- `LinkIndex.isCacheValid`: `fileOnDisk = none` models a missing cache
file, `some none` a file whose JSON parse throws (the `catch` branch), and
`some (some cd)` a parsed record.  `now` is `Date.now()`,
`currentFileCount` the length of `getAllMarkdownFiles()`. -/
def isCacheValid (fileOnDisk : Option (Option CacheData)) (now : Int)
    (currentFileCount : Nat) : Bool :=
  match fileOnDisk with
  | none => false
  | some none => false
  | some (some cd) =>
    if now - cd.timestamp > 3600000 then false
    else currentFileCount == cd.index.length

/-! ## Concrete witness data -/

def c8WitnessText : Str := "a\nx [[b]] y".toList

def c8WitnessLink : WikiLink :=
  { raw := "[[b]]".toList, target := "b".toList, displayText := none,
    startIndex := 4, endIndex := 9, line := some 2 }

def dummyWikiLink : WikiLink :=
  { raw := [], target := [], displayText := none, startIndex := 0, endIndex := 0, line := none }

def dummyLinkReference : LinkReference :=
  { sourceSlug := [], sourcePath := [], link := dummyWikiLink }

def mkIndexEntry (slug : Str) (incoming : Nat) : LinkIndexEntry :=
  { slug := slug, filePath := slug, outgoingLinks := [],
    incomingLinks := List.replicate incoming dummyLinkReference }

def c6WitnessCorpus : Corpus :=
  { root := [], files := ["notes/alpha.md".toList, "notes/beta.md".toList],
    fileExistsAt := fun _ => false }

/-! ## Parser lemmas -/

theorem tryMatchAt_bounds {s t : Str} {d : Option Str} {len : Nat}
    (h : tryMatchAt s = some (t, d, len)) : 1 ≤ len ∧ len ≤ s.length := by
  unfold tryMatchAt at h
  split at h
  case h_2 => exact absurd h (by simp)
  case h_1 c1 c2 rest =>
    simp only at h
    have htl : (rest.takeWhile targetClass).length ≤ rest.length :=
      (rest.takeWhile_sublist targetClass).length_le
    split at h
    case isFalse => exact absurd h (by simp)
    case isTrue =>
      split at h
      · exact absurd h (by simp)
      · split at h
        case h_2 => exact absurd h (by simp)
        case h_1 k1 ktail heq =>
          have hlen1 := congrArg List.length heq
          simp only [List.length_drop, List.length_cons] at hlen1
          split at h
          case isTrue =>
            split at h
            case h_2 => exact absurd h (by simp)
            case h_1 k2 tail =>
              split at h
              case isFalse => exact absurd h (by simp)
              case isTrue =>
                simp only [Option.some.injEq, Prod.mk.injEq] at h
                obtain ⟨rfl, rfl, rfl⟩ := h
                have h2 : rest.length - (List.takeWhile targetClass rest).length
                    = tail.length + 2 := by
                  simp only [List.length_cons] at hlen1
                  omega
                constructor
                · omega
                · simp only [List.length_cons]
                  omega
          case isFalse =>
            split at h
            case isFalse => exact absurd h (by simp)
            case isTrue =>
              have hdl : (ktail.takeWhile displayClass).length ≤ ktail.length :=
                (ktail.takeWhile_sublist displayClass).length_le
              split at h
              case isTrue => exact absurd h (by simp)
              case isFalse =>
                split at h
                case h_2 => exact absurd h (by simp)
                case h_1 m1 m2 tail2 heq2 =>
                  have hlen2 := congrArg List.length heq2
                  simp only [List.length_drop, List.length_cons] at hlen2
                  split at h
                  case isFalse => exact absurd h (by simp)
                  case isTrue =>
                    simp only [Option.some.injEq, Prod.mk.injEq] at h
                    obtain ⟨rfl, rfl, rfl⟩ := h
                    constructor
                    · omega
                    · simp only [List.length_cons]
                      omega

theorem scanFuel_mem :
    ∀ (fuel : Nat) (s : Str) (pos : Nat) (m : RawMatch),
      s.length ≤ fuel → m ∈ scanFuel fuel s pos →
      pos ≤ m.index ∧ m.index - pos + m.raw.length ≤ s.length ∧
        m.raw = (s.drop (m.index - pos)).take m.raw.length ∧ 0 < m.raw.length := by
  intro fuel
  induction fuel with
  | zero =>
    intro s pos m _ hm
    simp [scanFuel] at hm
  | succ fuel ih =>
    intro s pos m hs hm
    cases s with
    | nil => simp [scanFuel] at hm
    | cons c rest =>
      simp only [List.length_cons] at hs
      cases htm : tryMatchAt (c :: rest) with
      | none =>
        simp only [scanFuel, htm] at hm
        have hlen : rest.length ≤ fuel := by omega
        obtain ⟨h1, h2, h3, h4⟩ := ih rest (pos + 1) m hlen hm
        have hk : m.index - pos = (m.index - (pos + 1)) + 1 := by omega
        refine ⟨by omega, by simp only [List.length_cons]; omega, ?_, h4⟩
        rw [hk, List.drop_succ_cons]
        exact h3
      | some v =>
        obtain ⟨t, d, len⟩ := v
        have hb := tryMatchAt_bounds htm
        simp only [List.length_cons] at hb
        simp only [scanFuel, htm] at hm
        rcases List.mem_cons.mp hm with rfl | hm'
        · have hraw : ((c :: rest).take len).length = len := by
            simp only [List.length_take, List.length_cons]
            omega
          refine ⟨Nat.le_refl _, ?_, ?_, ?_⟩
          · simp only [Nat.sub_self, hraw, List.length_cons]
            omega
          · simp only [Nat.sub_self, List.drop_zero, hraw]
          · simp only [hraw]
            omega
        · have hdl : ((c :: rest).drop len).length = rest.length + 1 - len := by
            simp only [List.length_drop, List.length_cons]
          have hlen : ((c :: rest).drop len).length ≤ fuel := by omega
          obtain ⟨h1, h2, h3, h4⟩ := ih ((c :: rest).drop len) (pos + len) m hlen hm'
          simp only [List.drop_drop] at h3
          have hk : len + (m.index - (pos + len)) = m.index - pos := by omega
          rw [hk] at h3
          rw [hdl] at h2
          refine ⟨by omega, by simp only [List.length_cons]; omega, h3, h4⟩

theorem splitLines_ne_nil (s : Str) : splitLines s ≠ [] := by
  match s with
  | [] => simp [splitLines]
  | c :: rest =>
    rw [splitLines]
    split
    · simp
    · split <;> simp

theorem joinLines_cons (l : Str) (ls : List Str) (h : ls ≠ []) :
    joinLines (l :: ls) = l ++ '\n' :: joinLines ls := by
  match ls with
  | [] => exact absurd rfl h
  | x :: xs => rfl

theorem joinLines_cons_cons (c : Char) (l : Str) (ls : List Str) :
    joinLines ((c :: l) :: ls) = c :: joinLines (l :: ls) := by
  match ls with
  | [] => rfl
  | x :: xs => rfl

theorem joinLines_splitLines (s : Str) : joinLines (splitLines s) = s := by
  match s with
  | [] => rfl
  | c :: rest =>
    have ih := joinLines_splitLines rest
    rw [splitLines]
    split
    case isTrue h =>
      rw [joinLines_cons _ _ (splitLines_ne_nil rest), ih, h]
      simp
    case isFalse h =>
      split
      case h_1 habs => exact absurd habs (splitLines_ne_nil rest)
      case h_2 l ls hsplit =>
        rw [joinLines_cons_cons, ← hsplit, ih]

theorem splitLines_no_newline (s : Str) : ∀ l ∈ splitLines s, '\n' ∉ l := by
  match s with
  | [] =>
    intro l hl
    simp [splitLines] at hl
    simp [hl]
  | c :: rest =>
    have ih := splitLines_no_newline rest
    intro l hl
    rw [splitLines] at hl
    split at hl
    case isTrue h =>
      rcases List.mem_cons.mp hl with rfl | hl'
      · simp
      · exact ih l hl'
    case isFalse h =>
      split at hl
      case h_1 habs => exact absurd habs (splitLines_ne_nil rest)
      case h_2 x xs hsplit =>
        rcases List.mem_cons.mp hl with rfl | hl'
        · intro hmem
          rcases List.mem_cons.mp hmem with rfl | hmem'
          · exact h rfl
          · exact ih x (hsplit ▸ List.mem_cons_self x xs) hmem'
        · exact ih l (hsplit ▸ List.mem_cons_of_mem x hl')

theorem extractAux_mem :
    ∀ (lines : List Str) (lineStart lineNo : Nat) (text : Str),
      (∀ l ∈ lines, '\n' ∉ l) →
      text.drop lineStart = joinLines lines →
      (text.take lineStart).count '\n' = lineNo →
      lineStart ≤ text.length →
      ∀ lk ∈ extractAux lines lineStart lineNo,
        lk.startIndex < lk.endIndex ∧
        lk.raw = (text.drop lk.startIndex).take (lk.endIndex - lk.startIndex) ∧
        lk.line = some (1 + (text.take lk.startIndex).count '\n') := by
  intro lines
  induction lines with
  | nil =>
    intro lineStart lineNo text _ _ _ _ lk hlk
    simp [extractAux] at hlk
  | cons ln rest ih =>
    intro lineStart lineNo text hnl hdrop hcount hle lk hlk
    obtain ⟨suf, hsuf, hsufCount⟩ :
        ∃ suf, joinLines (ln :: rest) = ln ++ suf ∧
          (rest ≠ [] → suf = '\n' :: joinLines rest) := by
      match rest with
      | [] => exact ⟨[], by simp [joinLines], by simp⟩
      | x :: xs => exact ⟨'\n' :: joinLines (x :: xs), joinLines_cons _ _ (by simp), fun _ => rfl⟩
    rw [extractAux] at hlk
    rcases List.mem_append.mp hlk with hmem | hmem
    · obtain ⟨m, hm, rfl⟩ := List.mem_map.mp hmem
      obtain ⟨h1, h2, h3, h4⟩ :=
        scanFuel_mem ln.length ln 0 m (Nat.le_refl _) hm
      simp only [Nat.sub_zero] at h2 h3
      have hdropEq : text.drop (lineStart + m.index) = ln.drop m.index ++ suf := by
        have : text.drop (lineStart + m.index) = (text.drop lineStart).drop m.index := by
          rw [List.drop_drop]
        rw [this, hdrop, hsuf, List.drop_append_of_le_length (by omega)]
      have htakeEq : text.take (lineStart + m.index) = text.take lineStart ++ ln.take m.index := by
        rw [List.take_add, hdrop, hsuf, List.take_append_of_le_length (by omega)]
      refine ⟨by simp; omega, ?_, ?_⟩
      · simp only
        have hsub : lineStart + m.index + m.raw.length - (lineStart + m.index) = m.raw.length := by
          omega
        rw [hsub, hdropEq, List.take_append_of_le_length (by simp; omega)]
        exact h3
      · simp only [htakeEq, List.count_append, hcount]
        have hz : (ln.take m.index).count '\n' = 0 := by
          rw [List.count_eq_zero]
          intro hmem2
          exact hnl ln (List.mem_cons_self _ _) ((List.take_sublist _ _).mem hmem2)
        rw [hz]
        simp [Nat.add_comm]
    · match rest with
      | [] => simp [extractAux] at hmem
      | x :: xs =>
        have hsuf' := hsufCount (by simp)
        subst hsuf'
        have hJlen := congrArg List.length (hdrop.trans hsuf)
        simp at hJlen
        have harith : lineStart + ln.length + 1 = lineStart + (ln.length + 1) := by omega
        refine ih (lineStart + ln.length + 1) (lineNo + 1) text
          (fun l hl => hnl l (List.mem_cons_of_mem _ hl)) ?_ ?_ (by omega) lk hmem
        · rw [harith, ← List.drop_drop, hdrop, hsuf]
          have h1 : ln.length + 1 = ln.length + 1 := rfl
          calc (ln ++ '\n' :: joinLines (x :: xs)).drop (ln.length + 1)
              = ('\n' :: joinLines (x :: xs)).drop 1 := List.drop_append 1
            _ = joinLines (x :: xs) := by simp
        · rw [harith, List.take_add, hdrop, hsuf]
          have htk : (ln ++ '\n' :: joinLines (x :: xs)).take (ln.length + 1)
              = ln ++ ['\n'] := by
            rw [List.take_append]
            simp
          rw [htk, List.count_append, hcount]
          have hz : ln.count '\n' = 0 := by
            rw [List.count_eq_zero]
            exact hnl ln (List.mem_cons_self _ _)
          simp [List.count_append, hz]

theorem scanFuel_nil (fuel pos : Nat) : scanFuel fuel [] pos = [] := by
  cases fuel <;> rfl

theorem takeWhile_append_stop {p : Char → Bool} {t : Str} {x : Char} (r : Str)
    (ht : ∀ c ∈ t, p c) (hx : ¬ p x) :
    (t ++ x :: r).takeWhile p = t := by
  rw [List.takeWhile_append_of_pos ht, List.takeWhile_cons_of_neg hx, List.append_nil]

theorem drop_append_cons {t : Str} {x : Char} (r : Str) :
    (t ++ x :: r).drop t.length = x :: r := List.drop_left t (x :: r)

theorem tryMatchAt_plain (t tail : Str) (ht : t ≠ []) (htc : ∀ c ∈ t, targetClass c) :
    tryMatchAt ('[' :: '[' :: (t ++ ']' :: ']' :: tail)) =
      some (t, none, t.length + 4) := by
  have h1 : (t ++ ']' :: ']' :: tail).takeWhile targetClass = t :=
    takeWhile_append_stop _ htc (by decide)
  have h2 : (t ++ ']' :: ']' :: tail).drop t.length = ']' :: ']' :: tail :=
    drop_append_cons _
  have hne : ¬ t.length = 0 := by
    simpa [List.length_eq_zero] using ht
  simp only [tryMatchAt, and_self, ite_true]
  simp only [h1, h2, if_neg hne]
  simp

theorem tryMatchAt_display (t d tail : Str) (ht : t ≠ []) (htc : ∀ c ∈ t, targetClass c)
    (hd : d ≠ []) (hdc : ∀ c ∈ d, displayClass c) :
    tryMatchAt ('[' :: '[' :: (t ++ '|' :: (d ++ ']' :: ']' :: tail))) =
      some (t, some d, t.length + d.length + 5) := by
  have h1 : (t ++ '|' :: (d ++ ']' :: ']' :: tail)).takeWhile targetClass = t :=
    takeWhile_append_stop _ htc (by decide)
  have h2 : (t ++ '|' :: (d ++ ']' :: ']' :: tail)).drop t.length
      = '|' :: (d ++ ']' :: ']' :: tail) := drop_append_cons _
  have hne : ¬ t.length = 0 := by
    simpa [List.length_eq_zero] using ht
  have h3 : (d ++ ']' :: ']' :: tail).takeWhile displayClass = d :=
    takeWhile_append_stop _ hdc (by decide)
  have h4 : (d ++ ']' :: ']' :: tail).drop d.length = ']' :: ']' :: tail :=
    drop_append_cons _
  have hdne : ¬ d.length = 0 := by
    simpa [List.length_eq_zero] using hd
  simp only [tryMatchAt, and_self, ite_true]
  simp only [h1, h2, if_neg hne]
  simp only [h3, h4, if_neg hdne]
  simp

theorem splitLines_eq_single : ∀ (s : Str), '\n' ∉ s → splitLines s = [s]
  | [], _ => rfl
  | c :: rest, h => by
    rw [splitLines]
    have hc : ¬ c = '\n' := fun e => h (e ▸ List.mem_cons_self c rest)
    rw [if_neg hc, splitLines_eq_single rest (fun m => h (List.mem_cons_of_mem c m))]

theorem scanMatches_single_display (t d : Str) (ht : t ≠ [])
    (htc : ∀ c ∈ t, targetClass c) (hd : d ≠ []) (hdc : ∀ c ∈ d, displayClass c) :
    scanMatches ('[' :: '[' :: (t ++ '|' :: (d ++ [']', ']']))) 0 =
      [{ index := 0, raw := '[' :: '[' :: (t ++ '|' :: (d ++ [']', ']'])), target := t,
         display := some d }] := by
  have htm := tryMatchAt_display t d [] ht htc hd hdc
  have hlen : ('[' :: '[' :: (t ++ '|' :: (d ++ [']', ']']))).length
      = t.length + d.length + 5 := by
    simp
    omega
  have htake : ('[' :: '[' :: (t ++ '|' :: (d ++ [']', ']']))).take (t.length + d.length + 5)
      = '[' :: '[' :: (t ++ '|' :: (d ++ [']', ']'])) :=
    List.take_of_length_le (by omega)
  have hdrop : ('[' :: '[' :: (t ++ '|' :: (d ++ [']', ']']))).drop (t.length + d.length + 5)
      = [] := List.drop_eq_nil_of_le (by omega)
  rw [scanMatches]
  rw [show ('[' :: '[' :: (t ++ '|' :: (d ++ [']', ']']))).length
      = (t.length + d.length + 4) + 1 from by omega]
  rw [scanFuel, htm]
  simp only [htake, hdrop, scanFuel_nil]

/-- C1: the claim (spec and the repo's own nested-bracket test) says
`extractWikiLinks("[[note-[test]]]")` is empty; the regex's target class
`[^\]|]` admits `[`, so the code in fact produces one partial match
`[[note-[test]]` — the code contradicts its own test. -/
theorem extractWikiLinks_nested_bracket_eval :
    extractWikiLinks ("[[note-[test]]]".toList) =
      [{ raw := "[[note-[test]]".toList, target := "note-[test".toList, displayText := none,
         startIndex := 0, endIndex := 14, line := some 1 }] ∧
    extractWikiLinks ("[[note-[test]]]".toList) ≠ [] := by
  constructor
  · decide
  · decide

/-- C8: every extracted reference has `startIndex < endIndex`, `raw` equal to
the slice of the whole original text between its offsets, and a 1-indexed
`line` equal to one plus the number of newlines before the match. -/
theorem extractWikiLinks_offsets_invariant (text : Str) (lk : WikiLink)
    (h : lk ∈ extractWikiLinks text) :
    lk.startIndex < lk.endIndex ∧
    lk.raw = (text.drop lk.startIndex).take (lk.endIndex - lk.startIndex) ∧
    lk.line = some (1 + (text.take lk.startIndex).count '\n') :=
  extractAux_mem (splitLines text) 0 0 text (splitLines_no_newline text)
    (by simp [joinLines_splitLines]) (by simp) (Nat.zero_le _) lk h

theorem extractWikiLinks_offsets_invariant_witness :
    c8WitnessLink ∈ extractWikiLinks c8WitnessText ∧
    (c8WitnessLink.startIndex < c8WitnessLink.endIndex ∧
      c8WitnessLink.raw =
        (c8WitnessText.drop c8WitnessLink.startIndex).take
          (c8WitnessLink.endIndex - c8WitnessLink.startIndex) ∧
      c8WitnessLink.line = some (1 + (c8WitnessText.take c8WitnessLink.startIndex).count '\n')) :=
  ⟨by decide, extractWikiLinks_offsets_invariant c8WitnessText c8WitnessLink (by decide)⟩

/-- C3 (counterexample): the round-trip claim quantifies over every supplied
display string; for the empty display string `createWikiLink` emits
`[[note]]`, so extraction recovers no display text at all rather than the
supplied empty one. -/
theorem roundtrip_empty_display_cex :
    ¬ (extractWikiLinks (createWikiLink ("note".toList) (some []))).map
        (fun lk => (lk.target, lk.displayText)) = [("note".toList, some ([] : Str))] := by
  decide

/-- C3 (amended): for every target and display that a reference literal can
actually carry — nonempty, free of `]`/`|` (target), `]` (display) and
newlines, and whitespace-trim-invariant — extraction of
`createWikiLink target (some display)` yields exactly one reference with the
target and display unchanged. -/
theorem extract_createWikiLink_roundtrip (t d : Str) (ht : t ≠ [])
    (htc : ∀ c ∈ t, targetClass c ∧ c ≠ '\n') (hd : d ≠ [])
    (hdc : ∀ c ∈ d, displayClass c ∧ c ≠ '\n')
    (htr : jsTrim t = t) (hdr : jsTrim d = d) :
    extractWikiLinks (createWikiLink t (some d)) =
      [{ raw := '[' :: '[' :: (t ++ '|' :: (d ++ [']', ']'])), target := t,
         displayText := some d, startIndex := 0,
         endIndex := t.length + d.length + 5, line := some 1 }] := by
  have hde : ¬ d.isEmpty := by
    simpa [List.isEmpty_iff] using hd
  have hcw : createWikiLink t (some d) = '[' :: '[' :: (t ++ '|' :: (d ++ [']', ']'])) := by
    simp [createWikiLink, hde]
  rw [hcw]
  have hnn : '\n' ∉ ('[' :: '[' :: (t ++ '|' :: (d ++ [']', ']']))) := by
    intro hmem
    rcases List.mem_cons.mp hmem with h1 | hmem2
    · exact absurd h1 (by decide)
    rcases List.mem_cons.mp hmem2 with h1 | hmem3
    · exact absurd h1 (by decide)
    rcases List.mem_append.mp hmem3 with h1 | hmem4
    · exact (htc _ h1).2 rfl
    rcases List.mem_cons.mp hmem4 with h1 | hmem5
    · exact absurd h1 (by decide)
    rcases List.mem_append.mp hmem5 with h1 | h1
    · exact (hdc _ h1).2 rfl
    · exact absurd h1 (by decide)
  rw [extractWikiLinks, splitLines_eq_single _ hnn, extractAux]
  rw [scanMatches_single_display t d ht (fun c hc => (htc c hc).1) hd (fun c hc => (hdc c hc).1)]
  simp [extractAux, htr, hdr, WikiLink.mk.injEq]
  omega

theorem extract_createWikiLink_roundtrip_witness :
    ("note".toList : Str) ≠ [] ∧
    extractWikiLinks (createWikiLink ("note".toList) (some ("Display".toList))) =
      [{ raw := '[' :: '[' :: ("note".toList ++ '|' :: ("Display".toList ++ [']', ']'])),
         target := "note".toList, displayText := some ("Display".toList), startIndex := 0,
         endIndex := ("note".toList : Str).length + ("Display".toList : Str).length + 5,
         line := some 1 }] :=
  ⟨by decide,
    extract_createWikiLink_roundtrip ("note".toList) ("Display".toList) (by decide) (by decide)
      (by decide) (by decide) (by decide) (by decide)⟩

/-- C4 (counterexample): the claim says `parseWikiLink` returns `null`
whenever text follows the first match, in particular on
`"[[first]][[second]]"`; the code returns the first reference. -/
theorem parseWikiLink_trailing_cex :
    parseWikiLink ("[[first]][[second]]".toList) ≠ none ∧
    parseWikiLink ("[[first]][[second]]".toList) =
      some { raw := "[[first]]".toList, target := "first".toList, displayText := none,
             startIndex := 0, endIndex := 9, line := none } := by
  constructor
  · decide
  · decide

theorem firstMatch_some_spec :
    ∀ (s : Str) (m : RawMatch), firstMatch s = some m →
      ∃ t d len, tryMatchAt (s.drop m.index) = some (t, d, len) ∧
        (∀ j, j < m.index → tryMatchAt (s.drop j) = none) ∧
        m.raw = (s.drop m.index).take len ∧ m.target = t ∧ m.display = d := by
  intro s
  induction s with
  | nil =>
    intro m hm
    simp [firstMatch] at hm
  | cons c rest ih =>
    intro m hm
    cases htm : tryMatchAt (c :: rest) with
    | some v =>
      obtain ⟨t, d, len⟩ := v
      simp only [firstMatch, htm] at hm
      injection hm with hm2
      subst hm2
      refine ⟨t, d, len, ?_, ?_, rfl, rfl, rfl⟩
      · simpa using htm
      · intro j hj
        exact absurd hj (Nat.not_lt_zero j)
    | none =>
      simp only [firstMatch, htm] at hm
      obtain ⟨m2, hm2, heq⟩ := Option.map_eq_some'.mp hm
      subst heq
      obtain ⟨t, d, len, h1, h2, h3, h4, h5⟩ := ih m2 hm2
      refine ⟨t, d, len, ?_, ?_, ?_, h4, h5⟩
      · simpa [List.drop_succ_cons] using h1
      · intro j hj
        cases j with
        | zero => simpa using htm
        | succ j2 =>
          have hj2 : j2 < m2.index := by
            simp at hj
            omega
          simpa [List.drop_succ_cons] using h2 j2 hj2
      · simpa [List.drop_succ_cons] using h3

theorem firstMatch_none_spec :
    ∀ s : Str, firstMatch s = none ↔ ∀ i, tryMatchAt (s.drop i) = none := by
  intro s
  induction s with
  | nil => simp [firstMatch, tryMatchAt]
  | cons c rest ih =>
    cases htm : tryMatchAt (c :: rest) with
    | some v =>
      simp only [firstMatch, htm]
      constructor
      · intro h
        exact absurd h (by simp)
      · intro h
        have h0 := h 0
        rw [List.drop_zero, htm] at h0
        exact absurd h0 (by simp)
    | none =>
      simp only [firstMatch, htm, Option.map_eq_none']
      rw [ih]
      constructor
      · intro h i
        cases i with
        | zero => simpa using htm
        | succ i2 => simpa [List.drop_succ_cons] using h i2
      · intro h i
        simpa [List.drop_succ_cons] using h (i + 1)

/-- C4 (amended): `parseWikiLink` is a single `exec`: it returns the
reference built from the first match at whatever position it occurs — text
before that position is match-free, text after the match is ignored, and
the result always reports `startIndex = 0`, `endIndex = match.length` — and
it returns `null` exactly when no position of the input matches (spanning
the whole input is checked by `isValidWikiLink`, not here). -/
theorem parseWikiLink_first_match (text : Str) :
    (parseWikiLink text = none ↔ ∀ i, tryMatchAt (text.drop i) = none) ∧
    (∀ lk, parseWikiLink text = some lk →
      ∃ i t d len, tryMatchAt (text.drop i) = some (t, d, len) ∧
        (∀ j, j < i → tryMatchAt (text.drop j) = none) ∧
        lk = { raw := (text.drop i).take len, target := jsTrim t,
               displayText := d.map jsTrim, startIndex := 0, endIndex := len,
               line := none }) := by
  constructor
  · simp only [parseWikiLink, Option.map_eq_none']
    exact firstMatch_none_spec text
  · intro lk hlk
    simp only [parseWikiLink] at hlk
    obtain ⟨m, hm, heq⟩ := Option.map_eq_some'.mp hlk
    subst heq
    obtain ⟨t, d, len, h1, h2, h3, h4, h5⟩ := firstMatch_some_spec text m hm
    refine ⟨m.index, t, d, len, h1, h2, ?_⟩
    have hb := tryMatchAt_bounds h1
    have hlen : m.raw.length = len := by
      rw [h3]
      simp only [List.length_take]
      omega
    simp only [h3, h4, h5, WikiLink.mk.injEq, List.length_take, true_and, and_true]
    omega

theorem parseWikiLink_first_match_witness :
    parseWikiLink ("text [[a]][[b]]".toList) =
      some { raw := "[[a]]".toList, target := "a".toList, displayText := none,
             startIndex := 0, endIndex := 5, line := none } ∧
    (∃ i t d len,
      tryMatchAt (("text [[a]][[b]]".toList : Str).drop i) = some (t, d, len) ∧
      (∀ j, j < i → tryMatchAt (("text [[a]][[b]]".toList : Str).drop j) = none) ∧
      ({ raw := "[[a]]".toList, target := "a".toList, displayText := none,
         startIndex := 0, endIndex := 5, line := none } : WikiLink) =
        { raw := (("text [[a]][[b]]".toList : Str).drop i).take len, target := jsTrim t,
          displayText := d.map jsTrim, startIndex := 0, endIndex := len, line := none }) :=
  ⟨by decide, (parseWikiLink_first_match ("text [[a]][[b]]".toList)).2 _ (by decide)⟩

/-! ## Stable sort lemmas (`Array.prototype.sort` with a numeric comparator) -/

theorem stableInsert_perm (key : α → Int) (x : α) (l : List α) :
    List.Perm (stableInsert key x l) (x :: l) := by
  induction l with
  | nil => rfl
  | cons y ys ih =>
    rw [stableInsert]
    split
    · exact (ih.cons y).trans (List.Perm.swap x y ys)
    · rfl

theorem stableSort_perm (key : α → Int) (l : List α) : List.Perm (stableSort key l) l := by
  induction l with
  | nil => rfl
  | cons x xs ih =>
    rw [stableSort]
    exact (stableInsert_perm key x (stableSort key xs)).trans (ih.cons x)

theorem stableInsert_pairwise (key : α → Int) (x : α) (l : List α)
    (h : l.Pairwise (fun a b => key a ≤ key b)) :
    (stableInsert key x l).Pairwise (fun a b => key a ≤ key b) := by
  induction l with
  | nil => simp [stableInsert]
  | cons y ys ih =>
    rw [stableInsert]
    rcases List.pairwise_cons.mp h with ⟨hy, hys⟩
    split
    case isTrue hlt =>
      refine List.pairwise_cons.mpr ⟨?_, ih hys⟩
      intro b hb
      rcases List.mem_cons.mp ((stableInsert_perm key x ys).mem_iff.mp hb) with rfl | hb2
      · omega
      · exact hy b hb2
    case isFalse hge =>
      refine List.pairwise_cons.mpr ⟨?_, h⟩
      intro b hb
      rcases List.mem_cons.mp hb with rfl | hb2
      · omega
      · exact le_trans (by omega : key x ≤ key y) (hy b hb2)

theorem stableSort_pairwise (key : α → Int) (l : List α) :
    (stableSort key l).Pairwise (fun a b => key a ≤ key b) := by
  induction l with
  | nil => exact List.Pairwise.nil
  | cons x xs ih =>
    rw [stableSort]
    exact stableInsert_pairwise key x _ ih

theorem filter_stableInsert_pos (key : α → Int) (p : α → Bool) (x : α) (l : List α)
    (hx : p x = true) (hlow : ∀ y, key y < key x → p y = false) :
    (stableInsert key x l).filter p = x :: l.filter p := by
  induction l with
  | nil => simp [stableInsert, hx]
  | cons y ys ih =>
    rw [stableInsert]
    split
    case isTrue hlt =>
      have hpy : p y = false := hlow y hlt
      simp only [List.filter_cons, hpy, Bool.false_eq_true, if_false]
      exact ih
    case isFalse =>
      simp [List.filter_cons, hx]

theorem filter_stableInsert_neg (key : α → Int) (p : α → Bool) (x : α) (l : List α)
    (hx : p x = false) :
    (stableInsert key x l).filter p = l.filter p := by
  induction l with
  | nil => simp [stableInsert, hx]
  | cons y ys ih =>
    rw [stableInsert]
    split
    case isTrue hlt =>
      simp only [List.filter_cons]
      cases hpy : p y <;> simp [hpy, ih]
    case isFalse =>
      simp [List.filter_cons, hx]

theorem filter_stableSort (key : α → Int) (p : α → Bool) (dval : Int)
    (hp : ∀ a, p a = true → key a = dval) (l : List α) :
    (stableSort key l).filter p = l.filter p := by
  induction l with
  | nil => rfl
  | cons x xs ih =>
    rw [stableSort]
    cases hx : p x with
    | true =>
      have hlow : ∀ y, key y < key x → p y = false := by
        intro y hy
        cases hpy : p y with
        | true =>
          have h1 := hp y hpy
          have h2 := hp x hx
          omega
        | false => rfl
      rw [filter_stableInsert_pos key p x _ hx hlow, ih,
        List.filter_cons_of_pos hx]
    | false =>
      rw [filter_stableInsert_neg key p x _ hx, ih, List.filter_cons_of_neg (by simp [hx])]

theorem take_drop_pairwise_le (key : α → Int) (l : List α) (n : Nat) :
    ∀ a ∈ (stableSort key l).take n, ∀ b ∈ (stableSort key l).drop n, key a ≤ key b := by
  have hpw := stableSort_pairwise key l
  rw [← List.take_append_drop n (stableSort key l)] at hpw
  exact (List.pairwise_append.mp hpw).2.2

/-- C10: a supplied empty display text takes the falsy branch of
`if (displayText)`, so the result is `[[target]]`, identical to the
no-display call and never the piped form `[[target|]]`. -/
theorem createWikiLink_empty_display (target : Str) :
    createWikiLink target (some []) = '[' :: '[' :: (target ++ [']', ']']) ∧
    createWikiLink target (some []) = createWikiLink target none ∧
    createWikiLink target (some []) ≠ '[' :: '[' :: (target ++ '|' :: [']', ']']) := by
  refine ⟨rfl, rfl, ?_⟩
  intro h
  have hl := congrArg List.length h
  simp [createWikiLink] at hl


theorem mapSet_append {v : Type} (acc : List (Str × v)) (key : Str) (val : v)
    (h : key ∉ acc.map Prod.fst) : mapSet acc key val = acc ++ [(key, val)] := by
  rw [mapSet, if_neg]
  simp only [List.any_eq_true, not_exists, not_and]
  intro p hp hbeq
  exact h (List.mem_map.mpr ⟨p, hp, by simpa using hbeq⟩)

theorem foldl_mapSet_eq_map {v : Type} (g : Str × LinkIndexEntry → v) :
    ∀ (idx : LinkIndexState) (acc : List (Str × v)),
      (idx.map Prod.fst).Nodup → (∀ p ∈ idx, p.1 ∉ acc.map Prod.fst) →
      idx.foldl (fun m p => mapSet m p.1 (g p)) acc = acc ++ idx.map (fun p => (p.1, g p)) := by
  intro idx
  induction idx with
  | nil =>
    intro acc _ _
    simp
  | cons p ps ih =>
    intro acc hnd hni
    rw [List.foldl_cons, mapSet_append acc p.1 (g p) (hni p (List.mem_cons_self p ps))]
    rw [List.map_cons] at hnd
    rcases List.nodup_cons.mp hnd with ⟨hp1, hps⟩
    rw [ih (acc ++ [(p.1, g p)]) hps ?_]
    · simp
    · intro q hq
      simp only [List.map_append, List.mem_append, List.map_cons, List.map_nil]
      rintro (hkey | hkey)
      · exact hni q (List.mem_cons_of_mem p hq) hkey
      · simp at hkey
        exact hp1 (hkey ▸ List.mem_map.mpr ⟨q, hq, rfl⟩)

/-- C5 (counterexample): two notes with one backlink each, scanned in the
order `b` then `a`; the claim's lexicographic tie-break predicts `[a, b]`,
but the stable sort keeps the insertion order `[b, a]`. -/
theorem getMostLinkedNotes_tie_order_cex :
    getMostLinkedNotes
        [("b".toList, mkIndexEntry ("b".toList) 1), ("a".toList, mkIndexEntry ("a".toList) 1)]
        10
      = [("b".toList, 1), ("a".toList, 1)] ∧
    getMostLinkedNotes
        [("b".toList, mkIndexEntry ("b".toList) 1), ("a".toList, mkIndexEntry ("a".toList) 1)]
        10
      ≠ [("a".toList, 1), ("b".toList, 1)] := by
  constructor
  · decide
  · decide

/-- C5 (amended): `getMostLinkedNotes` ranks by descending incoming-edge
count and truncates to `limit`, but ties keep the index's insertion (corpus
scan) order — the ES2019-stable sort — not lexicographic id order.  The
last conjunct forces the truncation to keep the top of the ranking: no
omitted entry outranks any returned one. -/
theorem getMostLinkedNotes_characterization (index : LinkIndexState) (limit : Nat)
    (hnd : (index.map Prod.fst).Nodup) :
    (getMostLinkedNotes index limit).length = min limit index.length ∧
    ((getMostLinkedNotes index limit).map Prod.snd).Pairwise (fun a b => b ≤ a) ∧
    (∀ cnt : Nat,
      (getMostLinkedNotes index limit).filter (fun pr => pr.2 == cnt) <+:
        (index.map (fun p => (p.1, p.2.incomingLinks.length))).filter (fun pr => pr.2 == cnt)) ∧
    (∀ pr ∈ getMostLinkedNotes index limit,
      ∃ e, (pr.1, e) ∈ index ∧ e.incomingLinks.length = pr.2) ∧
    (∀ p ∈ index.map (fun r => (r.1, r.2.incomingLinks.length)),
      p ∉ getMostLinkedNotes index limit →
      ∀ q ∈ getMostLinkedNotes index limit, p.2 ≤ q.2) := by
  have hfold := foldl_mapSet_eq_map (fun p => p.2.incomingLinks.length) index [] hnd (by simp)
  have hgml : getMostLinkedNotes index limit =
      (stableSort (fun it : Str × Nat => -(it.2 : Int))
        (index.map (fun p => (p.1, p.2.incomingLinks.length)))).take limit := by
    rw [getMostLinkedNotes, hfold]
    simp only [List.nil_append, List.map_map]
    rfl
  rw [hgml]
  refine ⟨?_, ?_, ?_, ?_, ?_⟩
  · rw [List.length_take,
      (stableSort_perm (fun it : Str × Nat => -(it.2 : Int)) _).length_eq, List.length_map]
  · have hpw := stableSort_pairwise (fun it : Str × Nat => -(it.2 : Int))
      (index.map (fun p => (p.1, p.2.incomingLinks.length)))
    have hpw2 := hpw.sublist (List.take_sublist limit _)
    rw [List.pairwise_map]
    exact hpw2.imp (fun hab => by omega)
  · intro cnt
    have hpre : (stableSort (fun it : Str × Nat => -(it.2 : Int))
        (index.map (fun p => (p.1, p.2.incomingLinks.length)))).take limit <+:
        stableSort (fun it : Str × Nat => -(it.2 : Int))
          (index.map (fun p => (p.1, p.2.incomingLinks.length))) := List.take_prefix _ _
    have hfil := hpre.filter (fun pr : Str × Nat => pr.2 == cnt)
    rw [filter_stableSort (fun it : Str × Nat => -(it.2 : Int)) (fun pr => pr.2 == cnt)
      (-(cnt : Int)) (fun a ha => by
        simp at ha
        show -(a.2 : Int) = -(cnt : Int)
        omega) _] at hfil
    exact hfil
  · intro pr hpr
    have hmem : pr ∈ index.map (fun p => (p.1, p.2.incomingLinks.length)) :=
      (stableSort_perm (fun it : Str × Nat => -(it.2 : Int)) _).mem_iff.mp
        ((List.take_sublist _ _).mem hpr)
    obtain ⟨p, hp, rfl⟩ := List.mem_map.mp hmem
    exact ⟨p.2, by simpa using hp, rfl⟩
  · intro p hpM hpnot q hqS
    have hp_sorted : p ∈ stableSort (fun it : Str × Nat => -(it.2 : Int))
        (index.map (fun r => (r.1, r.2.incomingLinks.length))) :=
      (stableSort_perm (fun it : Str × Nat => -(it.2 : Int)) _).mem_iff.mpr hpM
    rw [← List.take_append_drop limit (stableSort (fun it : Str × Nat => -(it.2 : Int))
      (index.map (fun r => (r.1, r.2.incomingLinks.length))))] at hp_sorted
    rcases List.mem_append.mp hp_sorted with hin | hdrop
    · exact absurd hin hpnot
    · have hkey := take_drop_pairwise_le (fun it : Str × Nat => -(it.2 : Int))
        (index.map (fun r => (r.1, r.2.incomingLinks.length))) limit q hqS p hdrop
      have h2 : -((q.2 : Int)) ≤ -((p.2 : Int)) := hkey
      omega

theorem getMostLinkedNotes_characterization_witness :
    ((([("b".toList, mkIndexEntry ("b".toList) 1), ("a".toList, mkIndexEntry ("a".toList) 2)] :
        LinkIndexState).map Prod.fst).Nodup) ∧
    ((getMostLinkedNotes
        [("b".toList, mkIndexEntry ("b".toList) 1), ("a".toList, mkIndexEntry ("a".toList) 2)]
        1).length =
      min 1 ([("b".toList, mkIndexEntry ("b".toList) 1),
              ("a".toList, mkIndexEntry ("a".toList) 2)] : LinkIndexState).length ∧
     ((getMostLinkedNotes
        [("b".toList, mkIndexEntry ("b".toList) 1), ("a".toList, mkIndexEntry ("a".toList) 2)]
        1).map Prod.snd).Pairwise (fun a b => b ≤ a) ∧
     (∀ cnt : Nat,
       (getMostLinkedNotes
          [("b".toList, mkIndexEntry ("b".toList) 1), ("a".toList, mkIndexEntry ("a".toList) 2)]
          1).filter (fun pr => pr.2 == cnt) <+:
         (([("b".toList, mkIndexEntry ("b".toList) 1), ("a".toList, mkIndexEntry ("a".toList) 2)] :
            LinkIndexState).map
            (fun p => (p.1, p.2.incomingLinks.length))).filter (fun pr => pr.2 == cnt)) ∧
     (∀ pr ∈ getMostLinkedNotes
          [("b".toList, mkIndexEntry ("b".toList) 1), ("a".toList, mkIndexEntry ("a".toList) 2)]
          1,
        ∃ e, (pr.1, e) ∈
            ([("b".toList, mkIndexEntry ("b".toList) 1),
              ("a".toList, mkIndexEntry ("a".toList) 2)] : LinkIndexState) ∧
          e.incomingLinks.length = pr.2) ∧
     (∀ p ∈ ([("b".toList, mkIndexEntry ("b".toList) 1),
              ("a".toList, mkIndexEntry ("a".toList) 2)] : LinkIndexState).map
            (fun r => (r.1, r.2.incomingLinks.length)),
        p ∉ getMostLinkedNotes
            [("b".toList, mkIndexEntry ("b".toList) 1), ("a".toList, mkIndexEntry ("a".toList) 2)]
            1 →
        ∀ q ∈ getMostLinkedNotes
            [("b".toList, mkIndexEntry ("b".toList) 1), ("a".toList, mkIndexEntry ("a".toList) 2)]
            1,
          p.2 ≤ q.2)) :=
  ⟨by decide,
    getMostLinkedNotes_characterization
      [("b".toList, mkIndexEntry ("b".toList) 1), ("a".toList, mkIndexEntry ("a".toList) 2)]
      1 (by decide)⟩

theorem filter_fst_eq_map_filter_snd (X : List (Str × Nat)) (Q : Str → Bool)
    (p : Str × Nat → Bool) (hX : ∀ pr ∈ X, Q pr.1 = p pr) :
    (X.map Prod.fst).filter Q = (X.filter p).map Prod.fst := by
  induction X with
  | nil => rfl
  | cons pr prs ih =>
    simp only [List.map_cons, List.filter_cons]
    rw [← hX pr (List.mem_cons_self _ _)]
    cases hc : Q pr.1 <;>
      simp [hc, ih (fun q hq => hX q (List.mem_cons_of_mem _ hq))]

theorem double_filter_map_fst (stems : List Str) (F : Str → Str × Nat)
    (p q : Str × Nat → Bool) (Q : Str → Bool)
    (hfst : ∀ s, (F s).1 = s) (hPQ : ∀ s, (p (F s) && q (F s)) = Q s) :
    ((((stems.map F).filter q).filter p).map Prod.fst) = stems.filter Q := by
  induction stems with
  | nil => rfl
  | cons s ss ih =>
    simp only [List.map_cons, List.filter_cons, ← hPQ]
    cases hq : q (F s) <;> cases hp : p (F s) <;>
      (simp only [Bool.and_false, Bool.and_true, Bool.false_eq_true, Bool.true_eq_false,
         eq_self_iff_true, if_false, if_true, List.filter_cons, List.map_cons,
         ite_true, ite_false];
       try rw [hp];
       try simp only [Bool.false_eq_true, Bool.true_eq_false, eq_self_iff_true, if_false,
         if_true, ite_true, ite_false, List.map_cons, hfst, List.cons.injEq, true_and];
       exact ih)

/-- C6: when resolution fails, `resolveWikiLink` returns suggestions that are
(1) at most 5, exactly `min 5` of the number of qualifying stems, (2) only
stems whose case-insensitive edit distance to the target is at most 5,
(3) ordered by ascending distance, (4) with ties on equal distance kept in
original corpus scan order (stable), the whole list being a prefix of each
distance class, and (5) the truncation keeps the closest stems: any
qualifying stem left out is at least as far from the target as every
suggestion returned. -/
theorem resolveWikiLink_suggestions_spec (target : Str) (c : Corpus)
    (h : findNoteByLink target c = none) :
    ∃ S, (resolveWikiLink target c).suggestions = some S ∧
      S.length = min 5 ((c.files.map basenameMd).filter
        (fun s => levenshteinDistance (lowerL target) (lowerL s) ≤ 5)).length ∧
      (∀ s ∈ S, levenshteinDistance (lowerL target) (lowerL s) ≤ 5) ∧
      (S.map (fun s => levenshteinDistance (lowerL target) (lowerL s))).Pairwise (· ≤ ·) ∧
      (∀ dval : Nat,
        S.filter (fun s => levenshteinDistance (lowerL target) (lowerL s) == dval) <+:
          (c.files.map basenameMd).filter
            (fun s => levenshteinDistance (lowerL target) (lowerL s) == dval)) ∧
      (∀ s ∈ (c.files.map basenameMd),
        levenshteinDistance (lowerL target) (lowerL s) ≤ 5 → s ∉ S →
        ∀ s2 ∈ S, levenshteinDistance (lowerL target) (lowerL s2) ≤
          levenshteinDistance (lowerL target) (lowerL s)) := by
  refine ⟨findSimilarNotes target c 5, by rw [resolveWikiLink, h], ?_, ?_, ?_, ?_, ?_⟩
  all_goals
    have hS : findSimilarNotes target c 5 =
        ((stableSort (fun it : Str × Nat => (it.2 : Int))
          (((c.files.map basenameMd).map
            (fun slug => (slug, levenshteinDistance (lowerL target) (lowerL slug)))).filter
            (fun it => it.2 ≤ 5))).take 5).map Prod.fst := rfl
    have hscored_eq :
        (((c.files.map basenameMd).map
          (fun slug => (slug, levenshteinDistance (lowerL target) (lowerL slug)))).filter
          (fun it => it.2 ≤ 5)) =
        ((c.files.map basenameMd).filter
          (fun s => levenshteinDistance (lowerL target) (lowerL s) ≤ 5)).map
          (fun slug => (slug, levenshteinDistance (lowerL target) (lowerL slug))) := by
      rw [List.filter_map]
      rfl
    have hmem_scored : ∀ pr ∈ (((c.files.map basenameMd).map
          (fun slug => (slug, levenshteinDistance (lowerL target) (lowerL slug)))).filter
          (fun it => it.2 ≤ 5)),
        pr.2 = levenshteinDistance (lowerL target) (lowerL pr.1) ∧ pr.2 ≤ 5 := by
      intro pr hpr
      rw [hscored_eq] at hpr
      obtain ⟨s, hs, rfl⟩ := List.mem_map.mp hpr
      refine ⟨rfl, ?_⟩
      have := (List.mem_filter.mp hs).2
      simpa using this
  · -- (1) length
    rw [hS, List.length_map, List.length_take,
      (stableSort_perm (fun it : Str × Nat => (it.2 : Int)) _).length_eq,
      hscored_eq, List.length_map]
  · -- (2) membership bound
    intro s hs
    rw [hS] at hs
    obtain ⟨pr, hpr, rfl⟩ := List.mem_map.mp hs
    have hmem : pr ∈ stableSort (fun it : Str × Nat => (it.2 : Int)) _ :=
      (List.take_sublist _ _).mem hpr
    have hmem2 := (stableSort_perm (fun it : Str × Nat => (it.2 : Int)) _).mem_iff.mp hmem
    obtain ⟨hd, hb⟩ := hmem_scored pr hmem2
    omega
  · -- (3) ascending distances
    rw [hS, List.map_map, List.pairwise_map]
    have hpw := stableSort_pairwise (fun it : Str × Nat => (it.2 : Int))
      (((c.files.map basenameMd).map
        (fun slug => (slug, levenshteinDistance (lowerL target) (lowerL slug)))).filter
        (fun it => it.2 ≤ 5))
    have hpw2 := hpw.sublist (List.take_sublist 5 _)
    refine hpw2.imp_of_mem ?_
    intro a b ha hb hab
    have ha2 := (hmem_scored a ((stableSort_perm _ _).mem_iff.mp ((List.take_sublist _ _).mem ha))).1
    have hb2 := (hmem_scored b ((stableSort_perm _ _).mem_iff.mp ((List.take_sublist _ _).mem hb))).1
    simp only [Function.comp]
    rw [← ha2, ← hb2]
    omega
  · -- (4) stable tie classes, prefix per distance value
    intro dval
    rw [hS]
    have hX : ∀ pr ∈ (stableSort (fun it : Str × Nat => (it.2 : Int))
        (((c.files.map basenameMd).map
          (fun slug => (slug, levenshteinDistance (lowerL target) (lowerL slug)))).filter
          (fun it => it.2 ≤ 5))).take 5,
        pr.2 = levenshteinDistance (lowerL target) (lowerL pr.1) :=
      fun pr hpr => (hmem_scored pr ((stableSort_perm _ _).mem_iff.mp
        ((List.take_sublist _ _).mem hpr))).1
    rw [filter_fst_eq_map_filter_snd _
      (fun s => levenshteinDistance (lowerL target) (lowerL s) == dval)
      (fun pr : Str × Nat => pr.2 == dval)
      (fun pr hpr => by simp only [hX pr hpr])]
    have hpre0 := List.take_prefix 5 (stableSort (fun it : Str × Nat => (it.2 : Int))
      (((c.files.map basenameMd).map
        (fun slug => (slug, levenshteinDistance (lowerL target) (lowerL slug)))).filter
        (fun it => it.2 ≤ 5)))
    have hpre := hpre0.filter (fun pr : Str × Nat => pr.2 == dval)
    rw [filter_stableSort (fun it : Str × Nat => (it.2 : Int))
      (fun pr : Str × Nat => pr.2 == dval) (dval : Int)
      (fun a ha => by
        simp at ha
        show ((a.2 : Int)) = (dval : Int)
        omega) _] at hpre
    have hmapped := hpre.map Prod.fst
    by_cases hcase : dval ≤ 5
    · rw [double_filter_map_fst (c.files.map basenameMd)
        (fun slug => (slug, levenshteinDistance (lowerL target) (lowerL slug)))
        (fun pr : Str × Nat => pr.2 == dval) (fun it => it.2 ≤ 5)
        (fun s => levenshteinDistance (lowerL target) (lowerL s) == dval)
        (fun s => rfl)
        (fun s => by
          by_cases hsd : levenshteinDistance (lowerL target) (lowerL s) = dval
          · simp [hsd]
            omega
          · simp [hsd])] at hmapped
      exact hmapped
    · have hnil : ((stableSort (fun it : Str × Nat => (it.2 : Int))
          (((c.files.map basenameMd).map
            (fun slug => (slug, levenshteinDistance (lowerL target) (lowerL slug)))).filter
            (fun it => it.2 ≤ 5))).take 5).filter (fun pr : Str × Nat => pr.2 == dval)
          = [] := by
        rw [List.filter_eq_nil_iff]
        intro pr hpr
        have hd := (hmem_scored pr ((stableSort_perm _ _).mem_iff.mp
          ((List.take_sublist _ _).mem hpr))).2
        simp
        omega
      rw [hnil]
      simp
  · -- (5) completeness: no omitted qualifying stem is closer than a suggestion
    intro s hsStems hsDist hsNot s2 hs2
    rw [hS] at hsNot hs2
    have hsScored : (s, levenshteinDistance (lowerL target) (lowerL s)) ∈
        (((c.files.map basenameMd).map
          (fun slug => (slug, levenshteinDistance (lowerL target) (lowerL slug)))).filter
          (fun it => it.2 ≤ 5)) := by
      rw [hscored_eq]
      exact List.mem_map.mpr ⟨s, List.mem_filter.mpr ⟨hsStems, by simpa using hsDist⟩, rfl⟩
    have hsSorted := (stableSort_perm (fun it : Str × Nat => (it.2 : Int)) _).mem_iff.mpr hsScored
    rw [← List.take_append_drop 5 (stableSort (fun it : Str × Nat => (it.2 : Int))
      (((c.files.map basenameMd).map
        (fun slug => (slug, levenshteinDistance (lowerL target) (lowerL slug)))).filter
        (fun it => it.2 ≤ 5)))] at hsSorted
    rcases List.mem_append.mp hsSorted with hin | hdrop
    · exact absurd (List.mem_map.mpr ⟨_, hin, rfl⟩) hsNot
    · obtain ⟨q, hqT5, rfl⟩ := List.mem_map.mp hs2
      have hkey := take_drop_pairwise_le (fun it : Str × Nat => (it.2 : Int))
        (((c.files.map basenameMd).map
          (fun slug => (slug, levenshteinDistance (lowerL target) (lowerL slug)))).filter
          (fun it => it.2 ≤ 5)) 5 q hqT5 _ hdrop
      have h2 : ((q.2 : Int)) ≤ ((levenshteinDistance (lowerL target) (lowerL s) : Int)) := hkey
      have hq2 := (hmem_scored q ((stableSort_perm _ _).mem_iff.mp
        ((List.take_sublist _ _).mem hqT5))).1
      rw [← hq2]
      omega


theorem resolveWikiLink_suggestions_spec_witness :
    findNoteByLink ("gamma".toList) c6WitnessCorpus = none ∧
    (∃ S, (resolveWikiLink ("gamma".toList) c6WitnessCorpus).suggestions = some S ∧
      S.length = min 5 ((c6WitnessCorpus.files.map basenameMd).filter
        (fun s => levenshteinDistance (lowerL ("gamma".toList)) (lowerL s) ≤ 5)).length ∧
      (∀ s ∈ S, levenshteinDistance (lowerL ("gamma".toList)) (lowerL s) ≤ 5) ∧
      (S.map (fun s => levenshteinDistance (lowerL ("gamma".toList)) (lowerL s))).Pairwise
        (· ≤ ·) ∧
      (∀ dval : Nat,
        S.filter (fun s => levenshteinDistance (lowerL ("gamma".toList)) (lowerL s) == dval) <+:
          (c6WitnessCorpus.files.map basenameMd).filter
            (fun s => levenshteinDistance (lowerL ("gamma".toList)) (lowerL s) == dval)) ∧
      (∀ s ∈ (c6WitnessCorpus.files.map basenameMd),
        levenshteinDistance (lowerL ("gamma".toList)) (lowerL s) ≤ 5 → s ∉ S →
        ∀ s2 ∈ S, levenshteinDistance (lowerL ("gamma".toList)) (lowerL s2) ≤
          levenshteinDistance (lowerL ("gamma".toList)) (lowerL s))) :=
  ⟨by decide, resolveWikiLink_suggestions_spec ("gamma".toList) c6WitnessCorpus (by decide)⟩

/-- C2 (counterexample): a parsed cache record with a non-matching format
version, a fresh timestamp and a matching entry count is reported valid —
`isCacheValid` never inspects the version (only `loadCache` does). -/
theorem isCacheValid_ignores_version_cex :
    isCacheValid (some (some { version := "0.9.9".toList, timestamp := 0, index := [] })) 0 0
      = true ∧
    ("0.9.9".toList : Str) ≠ "1.0.0".toList := by
  constructor
  · decide
  · decide

/-- C2 (amended): `isCacheValid` returns true iff the cache file exists,
parses, its age `now - timestamp` is at most one hour (3 600 000 ms), and
the cached entry count equals the current markdown file count; the format
version is not examined (version checking happens only in `loadCache`). -/
theorem isCacheValid_characterization (cd : CacheData) (now : Int) (currentFileCount : Nat) :
    isCacheValid none now currentFileCount = false ∧
    isCacheValid (some none) now currentFileCount = false ∧
    isCacheValid (some (some cd)) now currentFileCount =
      (decide (now - cd.timestamp ≤ 3600000) && (currentFileCount == cd.index.length)) := by
  refine ⟨rfl, rfl, ?_⟩
  rw [isCacheValid]
  split
  case isTrue hgt =>
    have hd : ¬ (now - cd.timestamp ≤ 3600000) := by omega
    simp [hd]
  case isFalse hle =>
    have hd : now - cd.timestamp ≤ 3600000 := by omega
    simp [hd]

theorem foldl_add_outgoing (index : LinkIndexState) :
    ∀ n : Nat, index.foldl (fun acc p => acc + p.2.outgoingLinks.length) n
      = n + (index.map (fun p => p.2.outgoingLinks.length)).sum := by
  induction index with
  | nil => intro n; simp
  | cons p ps ih =>
    intro n
    rw [List.foldl_cons, ih]
    simp
    omega

/-- C7: `getStatistics` defines `brokenLinks` as `findBrokenLinks().length`
and `validLinks` as `totalLinks - brokenLinks`, so both identities of the
claim hold for every index state and corpus. -/
theorem brokenLinks_statistics_consistent (index : LinkIndexState) (c : Corpus) :
    (findBrokenLinks index c).length = (getStatistics index c).brokenLinks ∧
    (getStatistics index c).brokenLinks =
      (getStatistics index c).totalLinks - (getStatistics index c).validLinks := by
  have hle : (findBrokenLinks index c).length ≤
      index.foldl (fun acc p => acc + p.2.outgoingLinks.length) 0 := by
    rw [foldl_add_outgoing index 0, Nat.zero_add, findBrokenLinks, List.length_flatMap]
    refine List.sum_le_sum ?_
    intro p _
    exact List.length_filterMap_le _ _
  refine ⟨rfl, ?_⟩
  simp only [getStatistics]
  omega

/-- C9: `getBacklinks` and `getOutgoingLinks` fall back to `[]` when the id
is not a key of the index map; neither can fail. -/
theorem unknown_id_empty_results (index : LinkIndexState) (slug : Str)
    (h : slug ∉ index.map Prod.fst) :
    getBacklinks index slug = [] ∧ getOutgoingLinks index slug = [] := by
  have hf : index.find? (fun p => p.1 == slug) = none := by
    rw [List.find?_eq_none]
    intro p hp hbeq
    exact h (List.mem_map.mpr ⟨p, hp, by simpa using hbeq⟩)
  constructor
  · rw [getBacklinks, hf]
  · rw [getOutgoingLinks, hf]

theorem unknown_id_empty_results_witness :
    ("x".toList : Str) ∉
        (([("a".toList, mkIndexEntry ("a".toList) 1)] : LinkIndexState).map Prod.fst) ∧
    (getBacklinks [("a".toList, mkIndexEntry ("a".toList) 1)] ("x".toList) = [] ∧
      getOutgoingLinks [("a".toList, mkIndexEntry ("a".toList) 1)] ("x".toList) = []) :=
  ⟨by decide,
    unknown_id_empty_results [("a".toList, mkIndexEntry ("a".toList) 1)] ("x".toList)
      (by decide)⟩

end Enkidu
